import Mathlib

/-!
Verification development for the MiniTrader backtesting engine.

Prices, sizes and cash are modelled as exact rationals (`ℚ`); timestamps as
natural numbers (seconds).  Python dictionaries become association lists that
preserve insertion order, matching CPython semantics.  Every definition below
is a direct translation of the corresponding Python function in
`minitrader/{order,position,broker,utils,cerebro}.py`.
-/

namespace MiniTrader

/-! ### order.py -/

inductive OrderType
  | MARKET
  | LIMIT
  | STOP
deriving DecidableEq, Repr

inductive Direction
  | BUY
  | SELL
deriving DecidableEq, Repr

inductive OrderStatus
  | CREATED
  | SUBMITTED
  | ACCEPTED
  | COMPLETED
  | CANCELED
  | REJECTED
deriving DecidableEq, Repr

structure Order where
  data_name : String
  order_type : OrderType
  direction : Direction
  size : ℚ
  price : Option ℚ := none
  status : OrderStatus := OrderStatus.CREATED
  executed_price : Option ℚ := none
  executed_size : ℚ := 0
  executed_dt : Option ℕ := none
  commission : ℚ := 0
  ref : ℕ := 0
deriving DecidableEq, Repr

/-- `Order.execute`: mark the order as fully executed. -/
def Order.execute (o : Order) (price size : ℚ) (dt : ℕ) (commission : ℚ) : Order :=
  { o with
    executed_price := some price
    executed_size := size
    executed_dt := some dt
    commission := commission
    status := OrderStatus.COMPLETED }

/-- `Order.isbuy`. -/
def Order.isbuy (o : Order) : Prop := o.direction = Direction.BUY

/-- `Order.issell`. -/
def Order.issell (o : Order) : Prop := o.direction = Direction.SELL

instance (o : Order) : Decidable o.isbuy :=
  inferInstanceAs (Decidable (o.direction = Direction.BUY))

instance (o : Order) : Decidable o.issell :=
  inferInstanceAs (Decidable (o.direction = Direction.SELL))

/-! ### position.py -/

structure Position where
  size : ℚ := 0
  price : ℚ := 0
deriving DecidableEq, Repr

/-- `Position.update`: apply a signed trade and return the new position
together with the realized PnL from the closed quantity. -/
def Position.update (pos : Position) (size price : ℚ) : Position × ℚ :=
  let trade_size := size
  let trade_price := price
  if trade_size = 0 then (pos, 0)
  else
    let current_size := pos.size
    if current_size = 0 then ({ size := trade_size, price := trade_price }, 0)
    else
      if (current_size > 0 ∧ trade_size > 0) ∨ (current_size < 0 ∧ trade_size < 0) then
        let total_size := current_size + trade_size
        let weighted_cost := |current_size| * pos.price + |trade_size| * trade_price
        ({ size := total_size, price := weighted_cost / |total_size| }, 0)
      else
        let close_qty := min |current_size| |trade_size|
        let realized :=
          if current_size > 0 then (trade_price - pos.price) * close_qty
          else (pos.price - trade_price) * close_qty
        let new_size := current_size + trade_size
        let new_price :=
          if new_size = 0 then 0
          else if (current_size > 0 ∧ new_size < 0) ∨ (current_size < 0 ∧ new_size > 0) then
            trade_price
          else pos.price
        ({ size := new_size, price := new_price }, realized)

/-! ### Bars (the per-symbol OHLCV rows handed to the broker) -/

structure Bar where
  «open» : ℚ
  high : ℚ
  low : ℚ
  close : ℚ
  volume : ℚ := 0
  dt : ℕ := 0
deriving DecidableEq, Repr

/-! ### Association lists (Python `dict` with insertion order preserved) -/

/-- `d.get(k)` on an insertion-ordered dict. -/
def lookupList {α : Type} : List (String × α) → String → Option α
  | [], _ => none
  | p :: rest, k => if p.1 = k then some p.2 else lookupList rest k

/-- `d[k] = v`: replace in place when the key exists, append otherwise. -/
def setKey {α : Type} : List (String × α) → String → α → List (String × α)
  | [], k, v => [(k, v)]
  | p :: rest, k, v => if p.1 = k then (k, v) :: rest else p :: setKey rest k v

/-- `d.pop(k, None)`. -/
def removeKey {α : Type} : List (String × α) → String → List (String × α)
  | [], _ => []
  | p :: rest, k => if p.1 = k then rest else p :: removeKey rest k

/-! ### broker.py: order matching -/

/-- `Broker._match_price`: candidate fill price of an order on a bar,
`none` when the order does not match. -/
def matchPrice (order : Order) (open_price high_price low_price : ℚ) : Option ℚ :=
  if order.order_type = OrderType.MARKET then some open_price
  else
    match order.price with
    | none => none
    | some trigger_price =>
      if order.order_type = OrderType.LIMIT then
        if order.isbuy ∧ low_price ≤ trigger_price then some trigger_price
        else if order.issell ∧ high_price ≥ trigger_price then some trigger_price
        else none
      else if order.order_type = OrderType.STOP then
        if order.isbuy ∧ high_price ≥ trigger_price then some trigger_price
        else if order.issell ∧ low_price ≤ trigger_price then some trigger_price
        else none
      else none

/-! ### broker.py: broker state -/

/-- Trade record emitted by `Broker._record_trade_event`. -/
structure TradeEvent where
  data_name : String
  pnl : ℚ
  size : ℚ
  entry_dt : ℕ
  exit_dt : ℕ
  duration : ℚ
deriving DecidableEq, Repr

/-- An event appended by the broker to one of its notification buffers. -/
inductive BrokerEvent
  | orderUpdate (o : Order)
  | tradeUpdate (t : TradeEvent)
deriving DecidableEq, Repr

/-- State of `Broker`.  `emitted_log` is a history variable recording, in
order, every event the broker ever appended to `_last_order_updates` or
`_last_trade_updates`; the code itself does not keep it, but every append
below extends it in lockstep with the real buffer. -/
structure Broker where
  cash : ℚ
  commission : ℚ
  value : ℚ
  positions : List (String × Position) := []
  pending_orders : List Order := []
  position_entry_dt : List (String × ℕ) := []
  last_order_updates : List Order := []
  last_trade_updates : List TradeEvent := []
  emitted_log : List BrokerEvent := []

/-- `Broker.__init__`. -/
def initBroker (cash : ℚ) (commission : ℚ) : Broker :=
  { cash := cash, commission := commission, value := cash }

/-- `self._last_order_updates.append(order)` (also records the emission in
the history variable). -/
def Broker.emitOrderUpdate (b : Broker) (o : Order) : Broker :=
  { b with
    last_order_updates := b.last_order_updates ++ [o]
    emitted_log := b.emitted_log ++ [BrokerEvent.orderUpdate o] }

/-- `self._last_trade_updates.append(event)` (also records the emission in
the history variable). -/
def Broker.emitTradeUpdate (b : Broker) (t : TradeEvent) : Broker :=
  { b with
    last_trade_updates := b.last_trade_updates ++ [t]
    emitted_log := b.emitted_log ++ [BrokerEvent.tradeUpdate t] }

/-- `Broker.submit_order`: validate and queue an order, emitting the
post-validation status update immediately.  Returns the broker and the
order as the caller sees it. -/
def Broker.submit_order (b : Broker) (order : Order) : Broker × Order :=
  if order.size ≤ 0 then
    let o := { order with status := OrderStatus.REJECTED }
    (b.emitOrderUpdate o, o)
  else if (order.order_type = OrderType.LIMIT ∨ order.order_type = OrderType.STOP) ∧
      order.price = none then
    let o := { order with status := OrderStatus.REJECTED }
    (b.emitOrderUpdate o, o)
  else
    let o := { order with status := OrderStatus.ACCEPTED }
    let b := { b with pending_orders := b.pending_orders ++ [o] }
    (b.emitOrderUpdate o, o)

/-- `positions.setdefault(name, Position())`: return the existing position,
inserting a fresh default one when the key is absent. -/
def setdefaultPos (ps : List (String × Position)) (k : String) :
    Position × List (String × Position) :=
  match lookupList ps k with
  | some v => (v, ps)
  | none => ({}, ps ++ [(k, {})])

/-- `Broker._record_trade_event`. -/
def Broker.record_trade_event (b : Broker) (order : Order) (dt : ℕ)
    (prev_size new_size signed_size realized : ℚ) : Broker :=
  let data_name := order.data_name
  let entry0 := b.position_entry_dt
  let entry1 :=
    if prev_size = 0 ∧ new_size ≠ 0 then setKey entry0 data_name dt else entry0
  let closed_qty :=
    if prev_size ≠ 0 ∧ ((prev_size > 0 ∧ signed_size < 0) ∨ (prev_size < 0 ∧ signed_size > 0))
    then min |prev_size| |signed_size| else 0
  let b := { b with position_entry_dt := entry1 }
  let b :=
    if closed_qty > 0 then
      let entry_dt := (lookupList entry1 data_name).getD dt
      let duration_days := max 0 (((dt : ℚ) - (entry_dt : ℚ)) / 86400)
      b.emitTradeUpdate
        { data_name := data_name, pnl := realized, size := closed_qty
          entry_dt := entry_dt, exit_dt := dt, duration := duration_days }
    else b
  let entry2 :=
    if new_size = 0 then removeKey b.position_entry_dt data_name
    else if prev_size = 0 ∧ new_size ≠ 0 then setKey b.position_entry_dt data_name dt
    else if (prev_size > 0 ∧ 0 > new_size) ∨ (prev_size < 0 ∧ 0 < new_size) then
      setKey b.position_entry_dt data_name dt
    else b.position_entry_dt
  { b with position_entry_dt := entry2 }

/-- `Broker._execute_order`: attempt to fill a matched order at
`exec_price`.  Returns `true` and the mutated broker on success, `false`
(buy rejected for insufficient cash) otherwise. -/
def Broker.execute_order (b : Broker) (order : Order) (exec_price : ℚ) (dt : ℕ) :
    Bool × Broker :=
  let size := order.size
  let trade_value := exec_price * size
  let commission_fee := trade_value * b.commission
  let pv := setdefaultPos b.positions order.data_name
  let position := pv.1
  let b := { b with positions := pv.2 }
  let prev_size := position.size
  if order.direction = Direction.BUY then
    let total_cost := trade_value + commission_fee
    if b.cash < total_cost then
      let o := { order with status := OrderStatus.REJECTED }
      (false, b.emitOrderUpdate o)
    else
      let b := { b with cash := b.cash - total_cost }
      let signed_size := size
      let pr := position.update signed_size exec_price
      let b := { b with positions := setKey b.positions order.data_name pr.1 }
      let o := order.execute exec_price size dt commission_fee
      let b := b.emitOrderUpdate o
      (true, b.record_trade_event o dt prev_size pr.1.size signed_size (pr.2 - commission_fee))
  else
    let b := { b with cash := b.cash + (trade_value - commission_fee) }
    let signed_size := -size
    let pr := position.update signed_size exec_price
    let b := { b with positions := setKey b.positions order.data_name pr.1 }
    let o := order.execute exec_price size dt commission_fee
    let b := b.emitOrderUpdate o
    (true, b.record_trade_event o dt prev_size pr.1.size signed_size (pr.2 - commission_fee))

/-- `Broker.get_value`: account equity from cash plus position market
values, falling back to the position's cost price when no current price is
known for a symbol. -/
def Broker.get_value (b : Broker) (current_prices : List (String × ℚ)) : ℚ :=
  b.positions.foldl
    (fun total p => total + p.2.size * ((lookupList current_prices p.1).getD p.2.price))
    b.cash

/-- `Broker._build_close_prices`. -/
def buildClosePrices (current_data : List (String × Bar)) : List (String × ℚ) :=
  current_data.map (fun p => (p.1, p.2.close))

/-- The `for order in self._pending_orders` loop of
`Broker.execute_pending_orders`: thread the broker through each order,
collecting the orders that stay pending. -/
def execLoop (current_data : List (String × Bar)) (dt : ℕ) :
    List Order → Broker → List Order → Broker × List Order
  | [], b, still_pending => (b, still_pending)
  | order :: rest, b, still_pending =>
    if order.status ≠ OrderStatus.ACCEPTED then
      execLoop current_data dt rest b still_pending
    else
      match lookupList current_data order.data_name with
      | none => execLoop current_data dt rest b (still_pending ++ [order])
      | some bar =>
        match matchPrice order bar.«open» bar.high bar.low with
        | none => execLoop current_data dt rest b (still_pending ++ [order])
        | some matched_price =>
          let res := b.execute_order order matched_price dt
          execLoop current_data dt rest res.2 still_pending

/-- `Broker.execute_pending_orders`: reset the notification buffers, try to
match every pending order on the current bar data, then recompute equity
from the bar closes. -/
def Broker.execute_pending_orders (b : Broker) (current_data : List (String × Bar))
    (dt : ℕ) : Broker :=
  let b := { b with last_order_updates := [], last_trade_updates := [] }
  let res := execLoop current_data dt b.pending_orders b []
  let b := { res.1 with pending_orders := res.2 }
  let close_prices := buildClosePrices current_data
  { b with value := b.get_value close_prices }

/-! ### utils.py: LineSeries relative indexing -/

/-- `LineSeries.__getitem__`: relative indexing from the current cursor
`idx` over data of the given length.  `Except.error` models the raised
`IndexError`. -/
def lineGet (data : List ℚ) (idx n : ℤ) : Except String ℚ :=
  if n > 0 then Except.error "Future data access is not allowed (n must be <= 0)."
  else
    let target := idx + n
    if target < 0 then Except.error "Requested historical value is out of range."
    else if (data.length : ℤ) ≤ target then Except.error "Requested value is out of range."
    else Except.ok (data.getD target.toNat 0)

/-! ### Sequences of broker API calls (for the cash invariant) -/

/-- One public broker call. -/
inductive BrokerCall
  | submit (o : Order)
  | execute (current_data : List (String × Bar)) (dt : ℕ)

/-- Apply one call to the broker. -/
def applyCall (b : Broker) : BrokerCall → Broker
  | BrokerCall.submit o => (b.submit_order o).1
  | BrokerCall.execute current_data dt => b.execute_pending_orders current_data dt

/-- Apply a sequence of calls, left to right. -/
def applyCalls (b : Broker) : List BrokerCall → Broker
  | [] => b
  | c :: cs => applyCalls (applyCall b c) cs

/-- A bar whose open, high and low prices are all nonnegative. -/
def NonnegBar (bar : Bar) : Prop := 0 ≤ bar.«open» ∧ 0 ≤ bar.high ∧ 0 ≤ bar.low

/-- Precondition on one broker call: submitted orders carry nonnegative
trigger prices, and executed bars carry nonnegative prices. -/
def OkCall : BrokerCall → Prop
  | BrokerCall.submit o => ∀ p, o.price = some p → 0 ≤ p
  | BrokerCall.execute current_data _ => ∀ pr ∈ current_data, NonnegBar pr.2

/-- Every order in the list has positive size and a nonnegative trigger
price (the shape `submit_order` guarantees for the pending queue). -/
def PendingOk (l : List Order) : Prop :=
  ∀ o ∈ l, 0 < o.size ∧ ∀ p, o.price = some p → 0 ≤ p

/-- The broker state invariant behind the cash-nonnegativity property. -/
def BrokerInv (b : Broker) : Prop :=
  0 ≤ b.cash ∧ 0 ≤ b.commission ∧ b.commission ≤ 1 ∧ PendingOk b.pending_orders

/-! ### cerebro.py: the engine loop

Strategies are external code driven through fixed hooks; a strategy is
modelled as an initial state of type `σ` plus one transition function per
hook.  A hook returns the strategy's new state and the list of orders it
submitted (each submitted through `Broker.submit_order`, in order), which
is everything a hook can do that the engine observes.  `warmupPeriod`
models `Cerebro._compute_warmup_period`, the maximum `period` of the
strategy's attached indicators (the indicator library is an external
collaborator). -/

structure StrategyDef (σ : Type) where
  init : σ
  warmupPeriod : ℕ := 0
  onStart : σ → σ × List Order
  onNext : σ → σ × List Order
  onNotifyOrder : σ → Order → σ × List Order
  onNotifyTrade : σ → TradeEvent → σ × List Order
  onStop : σ → σ

/-- A named data feed: `adddata(PandasFeed(df), name)`. -/
structure Feed where
  name : String
  bars : List Bar

instance : Inhabited Bar := ⟨{ «open» := 0, high := 0, low := 0, close := 0 }⟩

/-- `min(len(data) for data in self.datas)` (0 when no feed, though `run`
rejects that case first). -/
def minBars (feeds : List Feed) : ℕ :=
  match feeds.map (fun f => f.bars.length) with
  | [] => 0
  | n :: ns => ns.foldl min n

/-- Mutable state threaded through one backtest run.  `dispatchLog`
records, in order, every `(strategy index, event)` notification delivered
by `Cerebro._dispatch_broker_notifications`. -/
structure RunState (σ : Type) where
  broker : Broker
  strats : List σ
  dispatchLog : List (ℕ × BrokerEvent)
  equityCurve : List (ℕ × ℚ)

/-- Submit a batch of orders produced by one strategy hook. -/
def submitAll (b : Broker) : List Order → Broker
  | [] => b
  | o :: os => submitAll (b.submit_order o).1 os

/-- `for strat in strategies: strat.start()`. -/
def startAll (b : Broker) : List (StrategyDef σ) → List σ × Broker
  | [] => ([], b)
  | sd :: ds =>
    let r := sd.onStart sd.init
    let rest := startAll (submitAll b r.2) ds
    (r.1 :: rest.1, rest.2)

/-- `for strat in strategies: strat.stop()`. -/
def stopAll : List (StrategyDef σ) → List σ → List σ
  | [], _ => []
  | _ :: _, [] => []
  | sd :: ds, s :: ss => sd.onStop s :: stopAll ds ss

/-- `for strat in strategies: strat.next()`. -/
def nextAll (b : Broker) : List (StrategyDef σ) → List σ → List σ × Broker
  | [], _ => ([], b)
  | _ :: _, [] => ([], b)
  | sd :: ds, s :: ss =>
    let r := sd.onNext s
    let rest := nextAll (submitAll b r.2) ds ss
    (r.1 :: rest.1, rest.2)

/-- The `for order in orders` half of the per-strategy notification loop:
log the delivery, run `notify_order` (which may submit further orders). -/
def notifyOrdersGo (sd : StrategyDef σ) (i : ℕ) :
    List Order → σ → Broker → List (ℕ × BrokerEvent) →
    σ × Broker × List (ℕ × BrokerEvent)
  | [], s, b, log => (s, b, log)
  | o :: os, s, b, log =>
    let log := log ++ [(i, BrokerEvent.orderUpdate o)]
    let r := sd.onNotifyOrder s o
    notifyOrdersGo sd i os r.1 (submitAll b r.2) log

/-- The `for trade in trades` half of the per-strategy notification loop. -/
def notifyTradesGo (sd : StrategyDef σ) (i : ℕ) :
    List TradeEvent → σ → Broker → List (ℕ × BrokerEvent) →
    σ × Broker × List (ℕ × BrokerEvent)
  | [], s, b, log => (s, b, log)
  | t :: ts, s, b, log =>
    let log := log ++ [(i, BrokerEvent.tradeUpdate t)]
    let r := sd.onNotifyTrade s t
    notifyTradesGo sd i ts r.1 (submitAll b r.2) log

/-- `for strat in strategies:` of `_dispatch_broker_notifications`: deliver
the consumed order updates, then the consumed trade updates, to each
strategy in turn.  `i` is the index of the first strategy in the list. -/
def dispatchGo (orders : List Order) (trades : List TradeEvent) :
    List (StrategyDef σ) → List σ → ℕ → Broker → List (ℕ × BrokerEvent) →
    List σ × Broker × List (ℕ × BrokerEvent)
  | [], _, _, b, log => ([], b, log)
  | _ :: _, [], _, b, log => ([], b, log)
  | sd :: ds, s :: ss, i, b, log =>
    let r1 := notifyOrdersGo sd i orders s b log
    let r2 := notifyTradesGo sd i trades r1.1 r1.2.1 r1.2.2
    let rest := dispatchGo orders trades ds ss (i + 1) r2.2.1 r2.2.2
    (r2.1 :: rest.1, rest.2)

/-- `Cerebro._dispatch_broker_notifications`: consume the broker's update
buffers and broadcast every consumed event to every strategy. -/
def dispatchNotifications (defs : List (StrategyDef σ)) (rs : RunState σ) : RunState σ :=
  let orders := rs.broker.last_order_updates
  let trades := rs.broker.last_trade_updates
  let b := { rs.broker with last_order_updates := [], last_trade_updates := [] }
  if orders = [] ∧ trades = [] then { rs with broker := b }
  else
    let r := dispatchGo orders trades defs rs.strats 0 b rs.dispatchLog
    { rs with strats := r.1, broker := r.2.1, dispatchLog := r.2.2 }

/-- One iteration of the `for bar_index in range(min_bars)` loop shared by
`Cerebro.run` and `Cerebro._run_optimization`: advance every feed to
`barIndex`, match pending orders, dispatch notifications, run `next` once
past warmup, dispatch again, and append to the equity curve. -/
def runStep (feeds : List Feed) (defs : List (StrategyDef σ)) (warmup : ℕ)
    (barIndex : ℕ) (rs : RunState σ) : RunState σ :=
  let dt :=
    match feeds with
    | [] => 0
    | f :: _ => (f.bars.getD barIndex default).dt
  let current_data := feeds.map (fun f => (f.name, f.bars.getD barIndex default))
  let rs := { rs with broker := rs.broker.execute_pending_orders current_data dt }
  let rs := dispatchNotifications defs rs
  let rs :=
    if barIndex + 1 ≥ max 1 warmup then
      let r := nextAll rs.broker defs rs.strats
      dispatchNotifications defs { rs with strats := r.1, broker := r.2 }
    else rs
  let current_prices := feeds.map (fun f => (f.name, (f.bars.getD barIndex default).close))
  let b := { rs.broker with value := rs.broker.get_value current_prices }
  { rs with broker := b, equityCurve := rs.equityCurve ++ [(dt, b.value)] }

/-- The subsequence of notifications delivered to strategy `i`, in
delivery order. -/
def eventsFor (log : List (ℕ × BrokerEvent)) (i : ℕ) : List BrokerEvent :=
  log.filterMap (fun p => if p.1 = i then some p.2 else none)

/-- Result of `Cerebro.run`: the stopped strategy instances plus the final
engine state the claims observe. -/
structure RunResult (σ : Type) where
  strategies : List σ
  broker : Broker
  dispatchLog : List (ℕ × BrokerEvent)
  equityCurve : List (ℕ × ℚ)

/-- `Cerebro.run` (the non-optimization path): validate configuration,
build a fresh broker, start the strategies, iterate the bar loop, stop the
strategies. -/
def run (cash rate : ℚ) (feeds : List Feed) (defs : List (StrategyDef σ)) :
    Except String (RunResult σ) :=
  if feeds.isEmpty then Except.error "No data feed added. Call adddata() before run()."
  else if defs.isEmpty then Except.error "No strategy added. Call addstrategy() before run()."
  else
    let st := startAll (initBroker cash rate) defs
    let min_bars := minBars feeds
    if min_bars = 0 then
      Except.ok
        { strategies := stopAll defs st.1, broker := st.2, dispatchLog := [], equityCurve := [] }
    else
      let warmup := (defs.map (fun sd => sd.warmupPeriod)).foldl max 0
      let rs0 : RunState σ :=
        { broker := st.2, strats := st.1, dispatchLog := [], equityCurve := [] }
      let rsN := (List.range min_bars).foldl (fun rs idx => runStep feeds defs warmup idx rs) rs0
      Except.ok
        { strategies := stopAll defs rsN.strats, broker := rsN.broker
          dispatchLog := rsN.dispatchLog, equityCurve := rsN.equityCurve }

/-- A flat one-bar price series. -/
def barC4 : Bar := { «open» := 10, high := 10, low := 10, close := 10, dt := 0 }

/-- A one-bar feed used to exercise the engine loop on concrete data. -/
def feedC4 : Feed := { name := "A", bars := [barC4] }

/-- A market buy order as a strategy creates it. -/
def oC4 : Order :=
  { data_name := "A", order_type := OrderType.MARKET,
    direction := Direction.BUY, size := 1 }

/-- `oC4` as accepted at submit time. -/
def oC4acc : Order := { oC4 with status := OrderStatus.ACCEPTED }

/-- `oC4` as completed after filling at the bar open of `barC4`. -/
def oC4done : Order :=
  { oC4 with
    status := OrderStatus.COMPLETED
    executed_price := some 10
    executed_size := 1
    executed_dt := some 0
    commission := 0 }

/-- A strategy that submits one market buy from its `start` hook and
otherwise does nothing. -/
def stratC4 : StrategyDef Unit :=
  { init := ()
    warmupPeriod := 0
    onStart := fun s => (s, [oC4])
    onNext := fun s => (s, [])
    onNotifyOrder := fun s _ => (s, [])
    onNotifyTrade := fun s _ => (s, [])
    onStop := fun s => s }

/-- Broker state after `start` hooks ran on a fresh 100-cash broker:
`oC4` queued, its Accepted update buffered and recorded as emitted. -/
def brokerStartC4 : Broker :=
  { cash := 100, commission := 0, value := 100, positions := [], pending_orders := [oC4acc],
    position_entry_dt := [], last_order_updates := [oC4acc], last_trade_updates := [],
    emitted_log := [BrokerEvent.orderUpdate oC4acc] }

/-- Broker state after the first bar is matched: the fill went through, and
the buffered Accepted update was discarded by the buffer reset. -/
def brokerExecC4 : Broker :=
  { cash := 90, commission := 0, value := 100, positions := [("A", { size := 1, price := 10 })],
    pending_orders := [], position_entry_dt := [("A", 0)], last_order_updates := [oC4done],
    last_trade_updates := [],
    emitted_log := [BrokerEvent.orderUpdate oC4acc, BrokerEvent.orderUpdate oC4done] }

/-- `brokerExecC4` with its buffers consumed by the dispatch pass. -/
def brokerFinalC4 : Broker := { brokerExecC4 with last_order_updates := [] }

/-! ### cerebro.py: parameter-grid optimization -/

/-- One optimization parameter value: either an enumerable value set
(`range`, `list`, `tuple`, `set`) or a single scalar. -/
inductive GridVal
  | single (v : ℤ)
  | values (vs : List ℤ)

/-- `Cerebro._expand_grid`: parameter names with normalized value lists. -/
def expandGrid (grid : List (String × GridVal)) : List String × List (List ℤ) :=
  (grid.map (fun p => p.1),
   grid.map (fun p =>
     match p.2 with
     | GridVal.values vs => vs
     | GridVal.single v => [v]))

/-- `itertools.product`: cartesian product, first list varying slowest. -/
def cartProduct {α : Type} : List (List α) → List (List α)
  | [] => [[]]
  | l :: ls => l.flatMap (fun x => (cartProduct ls).map (fun combo => x :: combo))

/-- One row of `self._opt_results`. -/
structure OptResult (σ : Type) where
  params : List (String × ℤ)
  final_value : ℚ
  strategy : σ

/-- The sort key relation of `results.sort(key=..., reverse=True)`:
descending by `final_value`. -/
def optLE {σ : Type} (a b : OptResult σ) : Prop := b.final_value ≤ a.final_value

instance {σ : Type} : DecidableRel (@optLE σ) := fun a b =>
  inferInstanceAs (Decidable (b.final_value ≤ a.final_value))

instance {σ : Type} : IsTotal (OptResult σ) optLE :=
  ⟨fun a b => le_total b.final_value a.final_value⟩

instance {σ : Type} : IsTrans (OptResult σ) optLE :=
  ⟨fun _ _ _ hab hbc => le_trans hbc hab⟩

/-- The per-combination body of `_run_optimization`: fresh broker, fresh
feed cursors, single strategy, the shared bar loop, `strat.stop()`.
Returns the stopped strategy state and the final broker. -/
def runCombo (feeds : List Feed) (sd : StrategyDef σ) (cash rate : ℚ) : σ × Broker :=
  let st := startAll (initBroker cash rate) [sd]
  let min_bars := minBars feeds
  let warmup := sd.warmupPeriod
  let rs0 : RunState σ :=
    { broker := st.2, strats := st.1, dispatchLog := [], equityCurve := [] }
  let rsN := (List.range min_bars).foldl (fun rs idx => runStep feeds [sd] warmup idx rs) rs0
  ((stopAll [sd] rsN.strats).headD (sd.onStop sd.init), rsN.broker)

/-- The `results` list of `Cerebro._run_optimization` in generation order:
one entry per parameter combination, in cartesian-product order.
`strategyFor` models `strategy_cls(datas=..., broker=..., **params)`, the
externally supplied strategy construction. -/
def opt_results_unsorted (feeds : List Feed)
    (strategyFor : List (String × ℤ) → StrategyDef σ)
    (grid : List (String × GridVal)) (cash rate : ℚ) : List (OptResult σ) :=
  let eg := expandGrid grid
  let combos := (cartProduct eg.2).map (fun vs => eg.1.zip vs)
  combos.map (fun params =>
    let r := runCombo feeds (strategyFor params) cash rate
    { params := params, final_value := r.2.value, strategy := r.1 })

/-- `Cerebro._run_optimization`: enumerate the parameter grid, run every
combination in isolation, and stably sort the results by final equity,
descending (`results.sort(key=..., reverse=True)` is a stable sort; a
stable sort by a total preorder key is extensionally unique, here realized
by `List.insertionSort`). -/
def run_optimization (feeds : List Feed) (strategyFor : List (String × ℤ) → StrategyDef σ)
    (grid : List (String × GridVal)) (cash rate : ℚ) :
    Except String (List (OptResult σ)) :=
  if feeds.isEmpty then Except.error "No data feed added. Call adddata() before run()."
  else
    Except.ok (List.insertionSort optLE (opt_results_unsorted feeds strategyFor grid cash rate))

/-!
## Theorems

Each claim theorem is stated over the definitions above; helper lemmas are
shared and never claim-specific.
-/

/-- Claim C2: for `Position.update(signedSize, price)` with nonzero
`signedSize`: opening from flat sets `(signedSize, price)` with zero
realized PnL; a same-sign update adds sizes, blends the average price by
absolute-size weights and realizes nothing; an opposite-sign update
realizes `(price - oldPrice) * closedQty` for a long (mirrored for a
short) with `closedQty = min(|old|, |signedSize|)`, sets the new size to
`old + signedSize`, resets the price to 0 on a full close, and rebases the
price to the fill price on a sign flip. -/
theorem position_update_spec (pos : Position) (s p : ℚ) (hs : s ≠ 0) :
    (pos.size = 0 → pos.update s p = ({ size := s, price := p }, 0)) ∧
    ((pos.size > 0 ∧ s > 0) ∨ (pos.size < 0 ∧ s < 0) →
      pos.update s p =
        ({ size := pos.size + s,
           price := (|pos.size| * pos.price + |s| * p) / |pos.size + s| }, 0)) ∧
    (((pos.size > 0 ∧ s < 0) ∨ (pos.size < 0 ∧ s > 0)) →
      (pos.update s p).2 =
        (if pos.size > 0 then (p - pos.price) * min |pos.size| |s|
         else (pos.price - p) * min |pos.size| |s|) ∧
      (pos.update s p).1.size = pos.size + s ∧
      (pos.size + s = 0 → (pos.update s p).1.price = 0) ∧
      ((pos.size > 0 ∧ pos.size + s < 0) ∨ (pos.size < 0 ∧ pos.size + s > 0) →
        (pos.update s p).1.price = p)) := by
  refine ⟨fun h0 => ?_, fun hsame => ?_, fun hopp => ?_⟩
  · simp [Position.update, hs, h0]
  · rcases hsame with ⟨h1, h2⟩ | ⟨h1, h2⟩
    · simp [Position.update, hs, h1.ne', h1, h2]
    · simp [Position.update, hs, h1.ne, h1, h2, h1.not_lt, h2.not_lt]
  · have hcur : pos.size ≠ 0 := by rcases hopp with ⟨h1, _⟩ | ⟨h1, _⟩ <;> [exact h1.ne'; exact h1.ne]
    have hnsame : ¬((pos.size > 0 ∧ s > 0) ∨ (pos.size < 0 ∧ s < 0)) := by
      rcases hopp with ⟨h1, h2⟩ | ⟨h1, h2⟩ <;> push_neg <;> constructor <;> intro h <;> linarith
    rcases hopp with ⟨h1, h2⟩ | ⟨h1, h2⟩
    · refine ⟨?_, ?_, fun hz => ?_, fun hf => ?_⟩
      · simp [Position.update, hs, hcur, hnsame, h1, h2.not_lt, h1.not_lt]
      · simp [Position.update, hs, hcur, hnsame, h1, h2.not_lt, h1.not_lt]
      · simp [Position.update, hs, hcur, hnsame, h1, h2.not_lt, h1.not_lt, hz]
      · rcases hf with ⟨_, hneg⟩ | ⟨hcontra, _⟩
        · simp [Position.update, hs, hcur, hnsame, h1, h2.not_lt, h1.not_lt, hneg.ne, hneg]
        · exact absurd hcontra h1.not_lt
    · refine ⟨?_, ?_, fun hz => ?_, fun hf => ?_⟩
      · simp [Position.update, hs, hcur, hnsame, h1, h2.not_lt, h1.not_lt]
      · simp [Position.update, hs, hcur, hnsame, h1, h2.not_lt, h1.not_lt]
      · simp [Position.update, hs, hcur, hnsame, h1, h2.not_lt, h1.not_lt, hz]
      · rcases hf with ⟨hcontra, _⟩ | ⟨_, hpos⟩
        · exact absurd hcontra h1.not_lt
        · simp [Position.update, hs, hcur, hnsame, h1, h2.not_lt, h1.not_lt, hpos.ne', hpos]

/-- Claim C9: starting from a nonzero position, two same-direction updates
compose: applying `update(s1, p1)` then `update(s2, p2)` gives the same
position as the single combined update of size `s1 + s2` at the
size-weighted blended price, and every one of these updates realizes zero
PnL. -/
theorem position_update_sameSign_compose (pos : Position) (s1 p1 s2 p2 : ℚ)
    (h : (pos.size > 0 ∧ s1 > 0 ∧ s2 > 0) ∨ (pos.size < 0 ∧ s1 < 0 ∧ s2 < 0)) :
    ((pos.update s1 p1).1.update s2 p2).1 =
      (pos.update (s1 + s2) ((|s1| * p1 + |s2| * p2) / |s1 + s2|)).1 ∧
    (pos.update s1 p1).2 = 0 ∧
    ((pos.update s1 p1).1.update s2 p2).2 = 0 ∧
    (pos.update (s1 + s2) ((|s1| * p1 + |s2| * p2) / |s1 + s2|)).2 = 0 := by
  rcases h with ⟨h0, h1, h2⟩ | ⟨h0, h1, h2⟩
  · have h01 : (0:ℚ) < pos.size + s1 := by linarith
    have h12 : (0:ℚ) < s1 + s2 := by linarith
    have h012 : (0:ℚ) < pos.size + s1 + s2 := by linarith
    have e1 : pos.update s1 p1 =
        ({ size := pos.size + s1,
           price := (|pos.size| * pos.price + |s1| * p1) / |pos.size + s1| }, 0) := by
      simp [Position.update, h0.ne', h1.ne', h0, h1]
    have e2 : (pos.update s1 p1).1.update s2 p2 =
        ({ size := pos.size + s1 + s2,
           price := (|pos.size + s1| * ((|pos.size| * pos.price + |s1| * p1) / |pos.size + s1|)
             + |s2| * p2) / |pos.size + s1 + s2| }, 0) := by
      rw [e1]
      simp [Position.update, h01.ne', h2.ne', h01, h2]
    have e3 : pos.update (s1 + s2) ((|s1| * p1 + |s2| * p2) / |s1 + s2|) =
        ({ size := pos.size + (s1 + s2),
           price := (|pos.size| * pos.price
             + |s1 + s2| * ((|s1| * p1 + |s2| * p2) / |s1 + s2|)) / |pos.size + (s1 + s2)| }, 0) := by
      simp [Position.update, h0.ne', h12.ne', h0, h12]
    rw [e2, e3, e1]
    refine ⟨?_, rfl, rfl, rfl⟩
    have ha : |pos.size| = pos.size := abs_of_pos h0
    have hb : |s1| = s1 := abs_of_pos h1
    have hc : |s2| = s2 := abs_of_pos h2
    have hd : |pos.size + s1| = pos.size + s1 := abs_of_pos h01
    have he : |s1 + s2| = s1 + s2 := abs_of_pos h12
    have hf : |pos.size + s1 + s2| = pos.size + s1 + s2 := abs_of_pos h012
    have hg : |pos.size + (s1 + s2)| = pos.size + (s1 + s2) := by
      rw [← add_assoc]; exact hf
    simp only [Position.mk.injEq, ha, hb, hc, hd, he, hf, hg]
    constructor
    · ring
    · rw [← add_assoc]
      field_simp
      ring
  · have h01 : pos.size + s1 < 0 := by linarith
    have h12 : s1 + s2 < 0 := by linarith
    have h012 : pos.size + s1 + s2 < 0 := by linarith
    have e1 : pos.update s1 p1 =
        ({ size := pos.size + s1,
           price := (|pos.size| * pos.price + |s1| * p1) / |pos.size + s1| }, 0) := by
      simp [Position.update, h0.ne, h1.ne, h0, h1, h0.not_lt, h1.not_lt]
    have e2 : (pos.update s1 p1).1.update s2 p2 =
        ({ size := pos.size + s1 + s2,
           price := (|pos.size + s1| * ((|pos.size| * pos.price + |s1| * p1) / |pos.size + s1|)
             + |s2| * p2) / |pos.size + s1 + s2| }, 0) := by
      rw [e1]
      simp [Position.update, h01.ne, h2.ne, h01, h2, h01.not_lt, h2.not_lt]
    have e3 : pos.update (s1 + s2) ((|s1| * p1 + |s2| * p2) / |s1 + s2|) =
        ({ size := pos.size + (s1 + s2),
           price := (|pos.size| * pos.price
             + |s1 + s2| * ((|s1| * p1 + |s2| * p2) / |s1 + s2|)) / |pos.size + (s1 + s2)| }, 0) := by
      simp [Position.update, h0.ne, h12.ne, h0, h12, h0.not_lt, h12.not_lt]
    rw [e2, e3, e1]
    refine ⟨?_, rfl, rfl, rfl⟩
    have ha : |pos.size| = -pos.size := abs_of_neg h0
    have hb : |s1| = -s1 := abs_of_neg h1
    have hc : |s2| = -s2 := abs_of_neg h2
    have hd : |pos.size + s1| = -(pos.size + s1) := abs_of_neg h01
    have he : |s1 + s2| = -(s1 + s2) := abs_of_neg h12
    have hf : |pos.size + s1 + s2| = -(pos.size + s1 + s2) := abs_of_neg h012
    have hg : |pos.size + (s1 + s2)| = -(pos.size + (s1 + s2)) := by
      rw [← add_assoc]; exact hf
    simp only [Position.mk.injEq, ha, hb, hc, hd, he, hf, hg, neg_mul, ← neg_add,
      neg_div_neg_eq]
    constructor
    · ring
    · rw [← add_assoc]
      have d1 : pos.size + s1 ≠ 0 := h01.ne
      have d2 : s1 + s2 ≠ 0 := h12.ne
      have d3 : pos.size + s1 + s2 ≠ 0 := h012.ne
      field_simp
      ring

/-- Claim C8: `LineSeries.__getitem__` with cursor `idx` over data of
length `L` raises exactly when the offset is positive (look-ahead), or
`idx + n < 0` (which covers every access before the first `advance()`,
when `idx = -1`), or `idx + n ≥ L`; otherwise it returns the element at
absolute position `idx + n`. -/
theorem lineGet_spec (data : List ℚ) (idx n : ℤ) :
    ((∃ e, lineGet data idx n = Except.error e) ↔
      n > 0 ∨ idx + n < 0 ∨ idx + n ≥ (data.length : ℤ)) ∧
    (¬(n > 0 ∨ idx + n < 0 ∨ idx + n ≥ (data.length : ℤ)) →
      lineGet data idx n = Except.ok (data.getD (idx + n).toNat 0)) := by
  have hres : lineGet data idx n =
      (if n > 0 then Except.error "Future data access is not allowed (n must be <= 0)."
       else if idx + n < 0 then Except.error "Requested historical value is out of range."
       else if (data.length : ℤ) ≤ idx + n then Except.error "Requested value is out of range."
       else Except.ok (data.getD (idx + n).toNat 0)) := rfl
  rw [hres]
  constructor
  · split_ifs with h1 h2 h3
    · exact iff_of_true ⟨_, rfl⟩ (Or.inl h1)
    · exact iff_of_true ⟨_, rfl⟩ (by omega)
    · exact iff_of_true ⟨_, rfl⟩ (by omega)
    · exact iff_of_false (by simp) (by omega)
  · intro h
    push_neg at h
    obtain ⟨hn, hlo, hhi⟩ := h
    rw [if_neg (by omega), if_neg (by omega), if_neg (by omega)]


theorem execLoop_mem_still (current_data : List (String × Bar)) (dt : ℕ)
    (orders : List Order) (b : Broker) (still : List Order) (o : Order)
    (ho : o ∈ still ∨ (o ∈ orders ∧ o.status = OrderStatus.ACCEPTED ∧
      ∃ bar, lookupList current_data o.data_name = some bar ∧
        matchPrice o bar.«open» bar.high bar.low = none)) :
    o ∈ (execLoop current_data dt orders b still).2 := by
  induction orders generalizing b still with
  | nil =>
    rcases ho with h | ⟨h, _⟩
    · simpa [execLoop] using h
    · simp at h
  | cons hd tl ih =>
    rcases ho with h | ⟨hmem, hacc, bar, hbar, hmp⟩
    · unfold execLoop
      split_ifs with hstat
      · exact ih b still (Or.inl h)
      · cases hlk : lookupList current_data hd.data_name with
        | none => exact ih b (still ++ [hd]) (Or.inl (List.mem_append_left _ h))
        | some bar =>
          cases hmpc : matchPrice hd bar.«open» bar.high bar.low with
          | none =>
            simp only [hlk, hmpc]
            exact ih _ (still ++ [hd]) (Or.inl (List.mem_append_left _ h))
          | some mp =>
            simp only [hlk, hmpc]
            exact ih _ still (Or.inl h)
    · rcases List.mem_cons.mp hmem with rfl | htl
      · unfold execLoop
        split_ifs with hstat
        · exact absurd hacc hstat
        · simp only [hbar, hmp]
          exact ih b (still ++ [o]) (Or.inl (List.mem_append_right _ (List.mem_singleton.mpr rfl)))
      · unfold execLoop
        split_ifs with hstat
        · exact ih b still (Or.inr ⟨htl, hacc, bar, hbar, hmp⟩)
        · cases hlk : lookupList current_data hd.data_name with
          | none => exact ih b (still ++ [hd]) (Or.inr ⟨htl, hacc, bar, hbar, hmp⟩)
          | some bar2 =>
            cases hmpc : matchPrice hd bar2.«open» bar2.high bar2.low with
            | none =>
              simp only [hlk, hmpc]
              exact ih _ (still ++ [hd]) (Or.inr ⟨htl, hacc, bar, hbar, hmp⟩)
            | some mp =>
              simp only [hlk, hmpc]
              exact ih _ still (Or.inr ⟨htl, hacc, bar, hbar, hmp⟩)

/-- Claim C1: the bar-matching table of `Broker._match_price` — a market
order fills at `bar.open`; a limit buy fills at its trigger `T` iff
`bar.low ≤ T`; a limit sell iff `bar.high ≥ T`; a stop buy iff
`bar.high ≥ T`; a stop sell iff `bar.low ≤ T` — and when no condition
holds, `execute_pending_orders` keeps the order, still Accepted, in the
pending queue for the next bar. -/
theorem match_price_and_queue_spec :
    (∀ (o : Order) (op hi lo : ℚ), o.order_type = OrderType.MARKET →
      matchPrice o op hi lo = some op) ∧
    (∀ (o : Order) (op hi lo T : ℚ), o.order_type = OrderType.LIMIT → o.price = some T →
      o.direction = Direction.BUY → (matchPrice o op hi lo = some T ↔ lo ≤ T)) ∧
    (∀ (o : Order) (op hi lo T : ℚ), o.order_type = OrderType.LIMIT → o.price = some T →
      o.direction = Direction.SELL → (matchPrice o op hi lo = some T ↔ hi ≥ T)) ∧
    (∀ (o : Order) (op hi lo T : ℚ), o.order_type = OrderType.STOP → o.price = some T →
      o.direction = Direction.BUY → (matchPrice o op hi lo = some T ↔ hi ≥ T)) ∧
    (∀ (o : Order) (op hi lo T : ℚ), o.order_type = OrderType.STOP → o.price = some T →
      o.direction = Direction.SELL → (matchPrice o op hi lo = some T ↔ lo ≤ T)) ∧
    (∀ (b : Broker) (current_data : List (String × Bar)) (dt : ℕ) (o : Order) (bar : Bar),
      o ∈ b.pending_orders → o.status = OrderStatus.ACCEPTED →
      lookupList current_data o.data_name = some bar →
      matchPrice o bar.«open» bar.high bar.low = none →
      o.status = OrderStatus.ACCEPTED ∧
        o ∈ (b.execute_pending_orders current_data dt).pending_orders) := by
  refine ⟨?_, ?_, ?_, ?_, ?_, ?_⟩
  · intro o op hi lo h
    simp [matchPrice, h]
  · intro o op hi lo T h1 h2 h3
    simp only [matchPrice, h1, h2, Order.isbuy, Order.issell, h3]
    split_ifs with hc hc2 <;> simp_all
  · intro o op hi lo T h1 h2 h3
    simp only [matchPrice, h1, h2, Order.isbuy, Order.issell, h3]
    split_ifs with hc hc2 <;> simp_all
  · intro o op hi lo T h1 h2 h3
    simp only [matchPrice, h1, h2, Order.isbuy, Order.issell, h3]
    split_ifs with hc hc2 <;> simp_all
  · intro o op hi lo T h1 h2 h3
    simp only [matchPrice, h1, h2, Order.isbuy, Order.issell, h3]
    split_ifs with hc hc2 <;> simp_all
  · intro b current_data dt o bar hmem hacc hbar hmp
    refine ⟨hacc, ?_⟩
    unfold Broker.execute_pending_orders
    exact execLoop_mem_still current_data dt _ _ [] o (Or.inr ⟨hmem, hacc, bar, hbar, hmp⟩)

theorem lookupList_append {α : Type} (l1 l2 : List (String × α)) (k : String) :
    lookupList (l1 ++ l2) k =
      match lookupList l1 k with
      | some v => some v
      | none => lookupList l2 k := by
  induction l1 with
  | nil => simp [lookupList]
  | cons p rest ih => by_cases h : p.1 = k <;> simp [lookupList, h, ih]

theorem setdefaultPos_lookup_getD (ps : List (String × Position)) (k k' : String) :
    ((lookupList (setdefaultPos ps k).2 k').getD {}) = ((lookupList ps k').getD {}) := by
  unfold setdefaultPos
  cases h : lookupList ps k with
  | some v => simp
  | none =>
    simp only [lookupList_append]
    cases h2 : lookupList ps k' with
    | some v => simp
    | none => by_cases hk : k = k' <;> simp [lookupList, hk, h2]

theorem execLoop_matched_not_mem (current_data : List (String × Bar)) (dt : ℕ)
    (orders : List Order) (b : Broker) (still : List Order) (o : Order) (bar : Bar) (p : ℚ)
    (hbar : lookupList current_data o.data_name = some bar)
    (hmp : matchPrice o bar.«open» bar.high bar.low = some p)
    (hstill : o ∉ still) :
    o ∉ (execLoop current_data dt orders b still).2 := by
  induction orders generalizing b still with
  | nil => simpa [execLoop] using hstill
  | cons hd tl ih =>
    unfold execLoop
    split_ifs with hstat
    · exact ih b still hstill
    · cases hlk : lookupList current_data hd.data_name with
      | none =>
        apply ih b (still ++ [hd])
        intro hin
        rcases List.mem_append.mp hin with h | h
        · exact hstill h
        · rw [List.mem_singleton] at h
          subst h
          rw [hbar] at hlk
          cases hlk
      | some bar2 =>
        cases hmpc : matchPrice hd bar2.«open» bar2.high bar2.low with
        | none =>
          simp only [hlk, hmpc]
          apply ih _ (still ++ [hd])
          intro hin
          rcases List.mem_append.mp hin with h | h
          · exact hstill h
          · rw [List.mem_singleton] at h
            subst h
            rw [hbar] at hlk
            injection hlk with hb
            subst hb
            rw [hmp] at hmpc
            cases hmpc
        | some mp =>
          simp only [hlk, hmpc]
          exact ih _ still hstill

/-- Claim C3: a matched buy whose total cost (fill value plus commission)
exceeds available cash is rejected, never filled: `_execute_order` returns
`false`, leaves cash and the symbol's position (size and price) exactly
unchanged, emits one order update carrying status Rejected, and
`execute_pending_orders` drops every matched order — in particular this
rejected one — from the pending queue. -/
theorem buy_insufficient_cash_reject_spec :
    (∀ (b : Broker) (o : Order) (p : ℚ) (dt : ℕ),
      o.direction = Direction.BUY →
      b.cash < p * o.size + p * o.size * b.commission →
      (b.execute_order o p dt).1 = false ∧
      (b.execute_order o p dt).2.cash = b.cash ∧
      ((lookupList (b.execute_order o p dt).2.positions o.data_name).getD {}) =
        ((lookupList b.positions o.data_name).getD {}) ∧
      (b.execute_order o p dt).2.pending_orders = b.pending_orders ∧
      (b.execute_order o p dt).2.last_order_updates =
        b.last_order_updates ++ [{ o with status := OrderStatus.REJECTED }]) ∧
    (∀ (b : Broker) (current_data : List (String × Bar)) (dt : ℕ) (o : Order) (bar : Bar)
      (p : ℚ),
      o.status = OrderStatus.ACCEPTED →
      lookupList current_data o.data_name = some bar →
      matchPrice o bar.«open» bar.high bar.low = some p →
      o ∉ (b.execute_pending_orders current_data dt).pending_orders) := by
  constructor
  · intro b o p dt hdir hcash
    refine ⟨?_, ?_, ?_, ?_, ?_⟩ <;>
      simp [Broker.execute_order, Broker.emitOrderUpdate, hdir, hcash,
        setdefaultPos_lookup_getD]
  · intro b current_data dt o bar p hacc hbar hmp
    unfold Broker.execute_pending_orders
    exact execLoop_matched_not_mem current_data dt _ _ [] o bar p hbar hmp (by simp)

theorem foldl_add_eq_add_sum (l : List (String × Position)) (f : String × Position → ℚ)
    (c : ℚ) : l.foldl (fun total p => total + f p) c = c + (l.map f).sum := by
  induction l generalizing c with
  | nil => simp
  | cons hd tl ih => simp [ih, add_assoc]

/-- Claim C6: after `execute_pending_orders` processes a bar, the broker's
`value` equals cash plus the sum over all positions of `size × close`,
with the position's own cost price substituted when the bar data has no
close for that symbol. -/
theorem equity_after_execute_spec (b : Broker) (current_data : List (String × Bar))
    (dt : ℕ) :
    (b.execute_pending_orders current_data dt).value =
      (b.execute_pending_orders current_data dt).cash +
        ((b.execute_pending_orders current_data dt).positions.map
          (fun p => p.2.size *
            ((lookupList (buildClosePrices current_data) p.1).getD p.2.price))).sum := by
  conv_lhs => rw [Broker.execute_pending_orders]
  rw [Broker.execute_pending_orders]
  simp only [Broker.get_value]
  exact foldl_add_eq_add_sum _ _ _

theorem lookupList_some_mem {α : Type} {l : List (String × α)} {k : String} {v : α}
    (h : lookupList l k = some v) : (k, v) ∈ l := by
  induction l with
  | nil => simp [lookupList] at h
  | cons p rest ih =>
    by_cases hk : p.1 = k
    · simp only [lookupList, hk, if_true] at h
      injection h with hv
      subst hv
      subst hk
      exact List.mem_cons_self _ _
    · simp only [lookupList, hk, if_false] at h
      exact List.mem_cons_of_mem _ (ih h)

theorem iteSome_inj {α : Type} {P Q : Prop} [Decidable P] [Decidable Q] {T p : α}
    (h : (if P then some T else if Q then some T else none) = some p) : T = p := by
  split_ifs at h <;> simp_all

theorem matchPrice_some (o : Order) (op hi lo p : ℚ)
    (h : matchPrice o op hi lo = some p) : p = op ∨ o.price = some p := by
  unfold matchPrice at h
  by_cases h1 : o.order_type = OrderType.MARKET
  · rw [if_pos h1] at h
    injection h with hp
    exact Or.inl hp.symm
  · rw [if_neg h1] at h
    cases hpr : o.price with
    | none => simp [hpr] at h
    | some T =>
      right
      rw [hpr] at h
      split_ifs at h with hL hS
      · exact congrArg some (iteSome_inj h)
      · exact congrArg some (iteSome_inj h)

theorem record_trade_event_cash_commission (b : Broker) (o : Order) (dt : ℕ)
    (a1 a2 a3 a4 : ℚ) :
    (b.record_trade_event o dt a1 a2 a3 a4).cash = b.cash ∧
    (b.record_trade_event o dt a1 a2 a3 a4).commission = b.commission := by
  unfold Broker.record_trade_event
  refine ⟨?_, ?_⟩ <;> (dsimp only; split_ifs <;> rfl)

theorem execute_order_cash_nonneg (b : Broker) (o : Order) (p : ℚ) (dt : ℕ)
    (hcash : 0 ≤ b.cash) (hc0 : 0 ≤ b.commission) (hc1 : b.commission ≤ 1)
    (hsize : 0 < o.size) (hp : 0 ≤ p) :
    0 ≤ (b.execute_order o p dt).2.cash ∧
    (b.execute_order o p dt).2.commission = b.commission := by
  unfold Broker.execute_order
  by_cases hdir : o.direction = Direction.BUY
  · by_cases hlt : b.cash < p * o.size + p * o.size * b.commission
    · simp [hdir, hlt, Broker.emitOrderUpdate]
      exact hcash
    · simp only [hdir, if_true, hlt, if_false]
      constructor
      · rw [(record_trade_event_cash_commission _ _ _ _ _ _ _).1]
        simp only [Broker.emitOrderUpdate]
        push_neg at hlt
        linarith
      · rw [(record_trade_event_cash_commission _ _ _ _ _ _ _).2]
        simp [Broker.emitOrderUpdate]
  · simp only [hdir, if_false]
    constructor
    · rw [(record_trade_event_cash_commission _ _ _ _ _ _ _).1]
      simp only [Broker.emitOrderUpdate]
      have hfee : 0 ≤ p * o.size * (1 - b.commission) :=
        mul_nonneg (mul_nonneg hp hsize.le) (by linarith)
      nlinarith
    · rw [(record_trade_event_cash_commission _ _ _ _ _ _ _).2]
      simp [Broker.emitOrderUpdate]

theorem submit_order_preserves_inv (b : Broker) (o : Order)
    (hok : ∀ p, o.price = some p → 0 ≤ p) (hinv : BrokerInv b) :
    BrokerInv (b.submit_order o).1 := by
  obtain ⟨hc, h0, h1, hp⟩ := hinv
  unfold Broker.submit_order
  split_ifs with hs hpx
  · exact ⟨hc, h0, h1, hp⟩
  · exact ⟨hc, h0, h1, hp⟩
  · refine ⟨hc, h0, h1, ?_⟩
    intro x hx
    rcases List.mem_append.mp hx with hx | hx
    · exact hp x hx
    · rw [List.mem_singleton] at hx
      subst hx
      push_neg at hs
      exact ⟨hs, fun p hpeq => hok p hpeq⟩

theorem execLoop_inv (current_data : List (String × Bar)) (dt : ℕ)
    (orders : List Order) (b : Broker) (still : List Order)
    (hdata : ∀ pr ∈ current_data, NonnegBar pr.2)
    (hcash : 0 ≤ b.cash) (hc0 : 0 ≤ b.commission) (hc1 : b.commission ≤ 1)
    (horders : PendingOk orders) (hstill : PendingOk still) :
    0 ≤ (execLoop current_data dt orders b still).1.cash ∧
    (execLoop current_data dt orders b still).1.commission = b.commission ∧
    PendingOk (execLoop current_data dt orders b still).2 := by
  induction orders generalizing b still with
  | nil => exact ⟨hcash, rfl, hstill⟩
  | cons hd tl ih =>
    have hhd := horders hd (List.mem_cons_self _ _)
    have htl : PendingOk tl := fun x hx => horders x (List.mem_cons_of_mem _ hx)
    unfold execLoop
    split_ifs with hstat
    · exact ih b still hcash hc0 hc1 htl hstill
    · cases hlk : lookupList current_data hd.data_name with
      | none =>
        apply ih b (still ++ [hd]) hcash hc0 hc1 htl
        intro x hx
        rcases List.mem_append.mp hx with hx | hx
        · exact hstill x hx
        · rw [List.mem_singleton] at hx
          subst hx
          exact hhd
      | some bar =>
        cases hmpc : matchPrice hd bar.«open» bar.high bar.low with
        | none =>
          simp only [hlk, hmpc]
          apply ih _ (still ++ [hd]) hcash hc0 hc1 htl
          intro x hx
          rcases List.mem_append.mp hx with hx | hx
          · exact hstill x hx
          · rw [List.mem_singleton] at hx
            subst hx
            exact hhd
        | some mp =>
          simp only [hlk, hmpc]
          have hbarmem : NonnegBar bar := hdata (hd.data_name, bar) (lookupList_some_mem hlk)
          have hmpn : 0 ≤ mp := by
            rcases matchPrice_some hd bar.«open» bar.high bar.low mp hmpc with hEq | hEq
            · rw [hEq]; exact hbarmem.1
            · exact hhd.2 mp hEq
          have hexec := execute_order_cash_nonneg b hd mp dt hcash hc0 hc1 hhd.1 hmpn
          have hrec := ih (b.execute_order hd mp dt).2 still hexec.1
            (by rw [hexec.2]; exact hc0) (by rw [hexec.2]; exact hc1) htl hstill
          exact ⟨hrec.1, by rw [hrec.2.1, hexec.2], hrec.2.2⟩

theorem execute_pending_orders_inv (b : Broker) (current_data : List (String × Bar))
    (dt : ℕ) (hdata : ∀ pr ∈ current_data, NonnegBar pr.2) (hinv : BrokerInv b) :
    BrokerInv (b.execute_pending_orders current_data dt) := by
  obtain ⟨hc, h0, h1, hp⟩ := hinv
  unfold Broker.execute_pending_orders
  have h := execLoop_inv current_data dt b.pending_orders
    { b with last_order_updates := [], last_trade_updates := [] } [] hdata hc h0 h1 hp
    (by intro x hx; simp at hx)
  exact ⟨h.1, by rw [h.2.1]; exact h0, by rw [h.2.1]; exact h1, h.2.2⟩

theorem applyCalls_inv (calls : List BrokerCall) (b : Broker)
    (hinv : BrokerInv b) (hok : ∀ c ∈ calls, OkCall c) :
    BrokerInv (applyCalls b calls) := by
  induction calls generalizing b with
  | nil => exact hinv
  | cons c cs ih =>
    apply ih
    · cases c with
      | submit o => exact submit_order_preserves_inv b o (hok _ (List.mem_cons_self _ _)) hinv
      | execute current_data dt =>
        exact execute_pending_orders_inv b current_data dt (hok _ (List.mem_cons_self _ _)) hinv
    · intro x hx
      exact hok x (List.mem_cons_of_mem _ hx)

/-- Claim C5, amended: under the additional hypotheses that every executed
bar has nonnegative open/high/low prices and every submitted order has a
nonnegative trigger price, a broker started with cash ≥ 0 and commission
rate in [0, 1] keeps a nonnegative cash balance across every sequence of
`submit_order` / `execute_pending_orders` calls: buys are executed only
when cash covers value plus commission, and sells credit
`value · (1 - rate) ≥ 0`. -/
theorem cash_never_negative_spec (cash rate : ℚ) (calls : List BrokerCall)
    (hcash : 0 ≤ cash) (hr0 : 0 ≤ rate) (hr1 : rate ≤ 1)
    (hok : ∀ c ∈ calls, OkCall c) :
    0 ≤ (applyCalls (initBroker cash rate) calls).cash :=
  (applyCalls_inv calls _ ⟨hcash, hr0, hr1, by intro o ho; simp [initBroker] at ho⟩ hok).1

/-- Claim C5, counterexample: with initial cash 0 and commission rate 0
(both within the claim's preconditions), submitting a market sell and
executing it against a bar whose open price is negative drives the cash
balance below zero, so the claim as stated fails on the code. -/
theorem cash_negative_counterexample :
    ((0:ℚ) ≤ 0 ∧ (0:ℚ) ≤ 0 ∧ (0:ℚ) ≤ 1) ∧
    (applyCalls (initBroker 0 0)
      [BrokerCall.submit
        { data_name := "A", order_type := OrderType.MARKET,
          direction := Direction.SELL, size := 1 },
       BrokerCall.execute
        [("A", { «open» := -10, high := -9, low := -11, close := -10 })] 0]).cash < 0 := by
  refine ⟨⟨le_refl 0, le_refl 0, by norm_num⟩, ?_⟩
  simp [applyCalls, applyCall, Broker.submit_order, Broker.emitOrderUpdate,
    Broker.execute_pending_orders, execLoop, lookupList, matchPrice,
    Broker.execute_order, setdefaultPos, Position.update, Broker.record_trade_event,
    Broker.emitTradeUpdate, Broker.get_value, buildClosePrices, initBroker,
    Order.isbuy, Order.issell, setKey, removeKey]
  norm_num

theorem cartProduct_length {α : Type} (ls : List (List α)) :
    (cartProduct ls).length = (ls.map List.length).prod := by
  induction ls with
  | nil => simp [cartProduct]
  | cons l rest ih =>
    simp only [cartProduct, List.map_cons, List.prod_cons]
    induction l with
    | nil => simp
    | cons x xs ihx =>
      simp only [List.flatMap_cons, List.length_append, List.length_map, List.length_cons, ihx]
      rw [ih]
      ring

/-- Claim C7: an optimization run returns one result per point of the
cartesian product of the parameter value sets (a scalar counting as a
singleton), sorted so that every adjacent pair is in descending
`final_value` order, and results with equal `final_value` keep their
combination-generation order (Python's `list.sort` is stable; the model's
`insertionSort` is extensionally the same stable sort). -/
theorem opt_results_sorted_spec {σ : Type} (feeds : List Feed)
    (strategyFor : List (String × ℤ) → StrategyDef σ) (grid : List (String × GridVal))
    (cash rate : ℚ) (hf : feeds ≠ []) :
    ∃ results : List (OptResult σ),
      run_optimization feeds strategyFor grid cash rate = Except.ok results ∧
      results.length =
        (grid.map (fun p =>
          match p.2 with
          | GridVal.single _ => 1
          | GridVal.values vs => vs.length)).prod ∧
      List.Sorted optLE results ∧
      (∀ a b : OptResult σ, a.final_value = b.final_value →
        List.Sublist [a, b] (opt_results_unsorted feeds strategyFor grid cash rate) →
        List.Sublist [a, b] results) := by
  refine ⟨_, by rw [run_optimization, if_neg (by simp [hf])], ?_, ?_, ?_⟩
  · rw [List.length_insertionSort, opt_results_unsorted]
    simp only [List.length_map, cartProduct_length, expandGrid, List.map_map]
    congr 1
    apply List.map_congr_left
    intro p _
    obtain ⟨n, gv⟩ := p
    cases gv <;> simp
  · exact List.sorted_insertionSort optLE _
  · intro a b hab hsub
    exact List.pair_sublist_insertionSort (le_of_eq hab.symm) hsub

theorem submit_order_fields (b : Broker) (o : Order) :
    (b.submit_order o).1.cash = b.cash ∧ (b.submit_order o).1.positions = b.positions ∧
    (b.submit_order o).1.value = b.value := by
  unfold Broker.submit_order
  split_ifs <;> simp [Broker.emitOrderUpdate]

theorem submitAll_fields (os : List Order) (b : Broker) :
    (submitAll b os).cash = b.cash ∧ (submitAll b os).positions = b.positions ∧
    (submitAll b os).value = b.value := by
  induction os generalizing b with
  | nil => exact ⟨rfl, rfl, rfl⟩
  | cons o os ih =>
    have h := submit_order_fields b o
    have h2 := ih (b.submit_order o).1
    exact ⟨h2.1.trans h.1, h2.2.1.trans h.2.1, h2.2.2.trans h.2.2⟩

theorem startAll_states {σ : Type} (defs : List (StrategyDef σ)) (b : Broker) :
    (startAll b defs).1 = defs.map (fun sd => (sd.onStart sd.init).1) := by
  induction defs generalizing b with
  | nil => rfl
  | cons sd ds ih => simp [startAll, ih]

theorem startAll_fields {σ : Type} (defs : List (StrategyDef σ)) (b : Broker) :
    (startAll b defs).2.cash = b.cash ∧ (startAll b defs).2.positions = b.positions ∧
    (startAll b defs).2.value = b.value := by
  induction defs generalizing b with
  | nil => exact ⟨rfl, rfl, rfl⟩
  | cons sd ds ih =>
    have h := submitAll_fields (sd.onStart sd.init).2 b
    have h2 := ih (submitAll b (sd.onStart sd.init).2)
    exact ⟨h2.1.trans h.1, h2.2.1.trans h.2.1, h2.2.2.trans h.2.2⟩

theorem stopAll_map {σ : Type} (defs : List (StrategyDef σ)) (f : StrategyDef σ → σ) :
    stopAll defs (defs.map f) = defs.map (fun sd => sd.onStop (f sd)) := by
  induction defs with
  | nil => rfl
  | cons sd ds ih => simp [stopAll, ih]

/-- Claim C10: with at least one feed and one strategy registered but a
minimum feed length of 0, `run()` still calls every strategy's `start`
hook and then its `stop` hook and returns the instances, processing no
bar: nothing is matched (cash, positions and equity value are untouched),
no event is dispatched, and the equity curve stays empty. -/
theorem run_zero_bars_spec {σ : Type} (cash rate : ℚ) (feeds : List Feed)
    (defs : List (StrategyDef σ)) (hf : feeds ≠ []) (hd : defs ≠ [])
    (hmin : minBars feeds = 0) :
    ∃ res : RunResult σ, run cash rate feeds defs = Except.ok res ∧
      res.strategies = defs.map (fun sd => sd.onStop (sd.onStart sd.init).1) ∧
      res.dispatchLog = [] ∧ res.equityCurve = [] ∧
      res.broker.cash = cash ∧ res.broker.positions = [] ∧ res.broker.value = cash := by
  unfold run
  rw [if_neg (by simp [hf]), if_neg (by simp [hd]), if_pos hmin]
  refine ⟨_, rfl, ?_, rfl, rfl, ?_, ?_, ?_⟩
  · rw [startAll_states, stopAll_map]
  · exact (startAll_fields defs _).1
  · exact (startAll_fields defs _).2.1
  · exact (startAll_fields defs _).2.2

theorem eventsFor_append (l1 l2 : List (ℕ × BrokerEvent)) (i : ℕ) :
    eventsFor (l1 ++ l2) i = eventsFor l1 i ++ eventsFor l2 i := by
  simp [eventsFor, List.filterMap_append]

theorem eventsFor_tagged (j i : ℕ) (evs : List BrokerEvent) :
    eventsFor (evs.map (fun e => (j, e))) i = if j = i then evs else [] := by
  induction evs with
  | nil => simp [eventsFor]
  | cons e es ih =>
    simp only [List.map_cons, eventsFor, List.filterMap_cons] at ih ⊢
    split_ifs with h <;> simp_all [eventsFor]

theorem notifyOrdersGo_log {σ : Type} (sd : StrategyDef σ) (i : ℕ) (os : List Order)
    (s : σ) (b : Broker) (log : List (ℕ × BrokerEvent)) :
    (notifyOrdersGo sd i os s b log).2.2 =
      log ++ os.map (fun o => (i, BrokerEvent.orderUpdate o)) := by
  induction os generalizing s b log with
  | nil => simp [notifyOrdersGo]
  | cons o os ih => simp [notifyOrdersGo, ih]

theorem notifyTradesGo_log {σ : Type} (sd : StrategyDef σ) (i : ℕ) (ts : List TradeEvent)
    (s : σ) (b : Broker) (log : List (ℕ × BrokerEvent)) :
    (notifyTradesGo sd i ts s b log).2.2 =
      log ++ ts.map (fun t => (i, BrokerEvent.tradeUpdate t)) := by
  induction ts generalizing s b log with
  | nil => simp [notifyTradesGo]
  | cons t ts ih => simp [notifyTradesGo, ih]

theorem dispatchGo_log {σ : Type} (orders : List Order) (trades : List TradeEvent)
    (defs : List (StrategyDef σ)) (states : List σ) (k : ℕ) (b : Broker)
    (log : List (ℕ × BrokerEvent)) (hlen : states.length = defs.length) :
    (dispatchGo orders trades defs states k b log).2.2 =
      log ++ (List.range' k defs.length).flatMap (fun j =>
        orders.map (fun o => (j, BrokerEvent.orderUpdate o)) ++
        trades.map (fun t => (j, BrokerEvent.tradeUpdate t))) := by
  induction defs generalizing states k b log with
  | nil => simp [dispatchGo]
  | cons sd ds ih =>
    cases states with
    | nil => simp at hlen
    | cons s ss =>
      have hlen2 : ss.length = ds.length := by simpa using hlen
      simp only [dispatchGo]
      rw [ih ss (k + 1) _ _ hlen2, notifyTradesGo_log, notifyOrdersGo_log]
      simp only [List.length_cons, List.range'_succ, List.flatMap_cons, List.append_assoc]

theorem eventsFor_range_flatMap (orders : List Order) (trades : List TradeEvent)
    (n k i : ℕ) :
    eventsFor ((List.range' k n).flatMap (fun j =>
      orders.map (fun o => (j, BrokerEvent.orderUpdate o)) ++
      trades.map (fun t => (j, BrokerEvent.tradeUpdate t)))) i =
      if k ≤ i ∧ i < k + n then
        orders.map BrokerEvent.orderUpdate ++ trades.map BrokerEvent.tradeUpdate
      else [] := by
  induction n generalizing k with
  | zero =>
    rw [if_neg (by omega)]
    simp [eventsFor]
  | succ n ih =>
    rw [List.range'_succ, List.flatMap_cons, eventsFor_append, eventsFor_append]
    have ho : orders.map (fun o => (k, BrokerEvent.orderUpdate o)) =
        (orders.map BrokerEvent.orderUpdate).map (fun e => (k, e)) := by
      simp [List.map_map]
    have ht : trades.map (fun t => (k, BrokerEvent.tradeUpdate t)) =
        (trades.map BrokerEvent.tradeUpdate).map (fun e => (k, e)) := by
      simp [List.map_map]
    rw [ho, ht, eventsFor_tagged, eventsFor_tagged, ih (k + 1)]
    by_cases h1 : k = i
    · subst h1
      rw [if_pos rfl, if_pos rfl, if_neg (by omega), if_pos (by omega)]
      simp
    · rw [if_neg h1, if_neg h1]
      simp only [List.nil_append]
      exact if_congr (by omega) rfl rfl

/-- Claim C4, amended: at each dispatch point,
`_dispatch_broker_notifications` delivers every event consumed from the
broker's buffers exactly once to every running strategy, order updates
first and then trade updates, each stream in the order the broker
generated it.  (The original claim fails: updates emitted at submit time
from `start()`, or from notify hooks during the final dispatch of a bar,
are still buffered when the next `execute_pending_orders` clears the
buffers, and are never dispatched — see the counterexample.) -/
theorem dispatch_notifications_exactly_once {σ : Type} (defs : List (StrategyDef σ))
    (rs : RunState σ) (i : ℕ) (hi : i < defs.length)
    (hlen : rs.strats.length = defs.length) :
    eventsFor (dispatchNotifications defs rs).dispatchLog i =
      eventsFor rs.dispatchLog i ++
        (rs.broker.last_order_updates.map BrokerEvent.orderUpdate ++
          rs.broker.last_trade_updates.map BrokerEvent.tradeUpdate) := by
  unfold dispatchNotifications
  dsimp only
  split_ifs with hempty
  · obtain ⟨h1, h2⟩ := hempty
    simp [h1, h2]
  · rw [dispatchGo_log _ _ _ _ _ _ _ hlen, eventsFor_append,
      eventsFor_range_flatMap, if_pos (by omega)]

theorem startAll_C4 : startAll (initBroker 100 0) [stratC4] = ([()], brokerStartC4) := by
  simp [startAll, submitAll, Broker.submit_order, Broker.emitOrderUpdate, initBroker,
    stratC4, oC4, brokerStartC4, oC4acc]
  norm_num

theorem exec_C4 : brokerStartC4.execute_pending_orders [("A", barC4)] 0 = brokerExecC4 := by
  simp [Broker.execute_pending_orders, execLoop, lookupList, matchPrice,
    Broker.execute_order, setdefaultPos, Position.update, Broker.record_trade_event,
    Broker.emitTradeUpdate, Broker.emitOrderUpdate, Broker.get_value, buildClosePrices,
    setKey, removeKey, Order.execute, Order.isbuy, Order.issell,
    brokerStartC4, brokerExecC4, oC4acc, oC4done, oC4, barC4]
  norm_num

theorem runStep_C4 :
    runStep [feedC4] [stratC4] 0 0
      { broker := brokerStartC4, strats := [()], dispatchLog := [], equityCurve := [] } =
      { broker := brokerFinalC4, strats := [()],
        dispatchLog := [(0, BrokerEvent.orderUpdate oC4done)], equityCurve := [(0, 100)] } := by
  unfold runStep
  simp only [feedC4, List.map_cons, List.map_nil, List.getElem?_cons_zero, List.headD]
  rw [show ([barC4].getD 0 default) = barC4 from rfl]
  rw [show barC4.dt = 0 from rfl]
  rw [exec_C4]
  simp [dispatchNotifications, dispatchGo, notifyOrdersGo, notifyTradesGo, nextAll,
    submitAll, stratC4, brokerExecC4, brokerFinalC4, Broker.get_value, lookupList,
    barC4, oC4done, oC4, eventsFor]
  norm_num

/-- Claim C4, counterexample: in a one-bar run whose strategy submits a
market buy from its `start` hook, the broker emits the order's Accepted
update (it is in the emission history), yet that event is never dispatched
to strategy 0 — `execute_pending_orders` resets the buffers before the
first dispatch — so the dispatched stream differs from the emitted
stream and the claim as stated is false. -/
theorem dispatch_lost_event_counterexample :
    ∃ res : RunResult Unit,
      run 100 0 [feedC4] [stratC4] = Except.ok res ∧
      BrokerEvent.orderUpdate oC4acc ∈ res.broker.emitted_log ∧
      BrokerEvent.orderUpdate oC4acc ∉ eventsFor res.dispatchLog 0 ∧
      eventsFor res.dispatchLog 0 ≠ res.broker.emitted_log := by
  refine ⟨{ strategies := [()], broker := brokerFinalC4,
            dispatchLog := [(0, BrokerEvent.orderUpdate oC4done)],
            equityCurve := [(0, 100)] }, ?_, ?_, ?_, ?_⟩
  · unfold run
    rw [if_neg (by simp [feedC4]), if_neg (by simp)]
    rw [if_neg (by simp [minBars, feedC4])]
    show Except.ok (RunResult.mk
      (stopAll [stratC4] (runStep [feedC4] [stratC4] 0 0
        (RunState.mk brokerStartC4 [()] [] [])).strats)
      ((runStep [feedC4] [stratC4] 0 0 (RunState.mk brokerStartC4 [()] [] [])).broker)
      ((runStep [feedC4] [stratC4] 0 0 (RunState.mk brokerStartC4 [()] [] [])).dispatchLog)
      ((runStep [feedC4] [stratC4] 0 0 (RunState.mk brokerStartC4 [()] [] [])).equityCurve)) = _
    rw [runStep_C4]
    simp [stopAll, stratC4]
  · simp [brokerFinalC4, brokerExecC4]
  · simp [eventsFor, oC4acc, oC4done, oC4]
  · simp [eventsFor, brokerFinalC4, brokerExecC4, oC4acc, oC4done, oC4]
/-- Witness for claim C1 at a concrete limit-buy order. -/
theorem match_price_and_queue_spec_witness :
    matchPrice { data_name := "A", order_type := OrderType.LIMIT, direction := Direction.BUY, size := 5, price := some 98 } 100 105 97 = some 98 :=
  (match_price_and_queue_spec.2.1
    { data_name := "A", order_type := OrderType.LIMIT, direction := Direction.BUY, size := 5, price := some 98 }
    100 105 97 98 rfl rfl rfl).mpr (by decide)

/-- Witness for claim C2 at a concrete same-direction add. -/
theorem position_update_spec_witness :
    Position.update { size := 2, price := 10 } 3 20 =
      ({ size := (2:ℚ) + 3, price := (|(2:ℚ)| * 10 + |(3:ℚ)| * 20) / |(2:ℚ) + 3| }, 0) :=
  (position_update_spec { size := 2, price := 10 } 3 20 (by decide)).2.1
    (Or.inl ⟨by decide, by decide⟩)

/-- Witness for claim C3: 50 cash cannot buy one unit at 100. -/
theorem buy_insufficient_cash_reject_spec_witness :
    ((initBroker 50 0).execute_order oC4 100 0).1 = false ∧
    ((initBroker 50 0).execute_order oC4 100 0).2.cash = (initBroker 50 0).cash :=
  let h := buy_insufficient_cash_reject_spec.1 (initBroker 50 0) oC4 100 0 rfl
    (by norm_num [initBroker, oC4])
  ⟨h.1, h.2.1⟩

/-- Witness for the amended claim C4 at a concrete dispatch point. -/
theorem dispatch_notifications_exactly_once_witness :
    eventsFor (dispatchNotifications [stratC4]
        { broker := brokerStartC4, strats := [()], dispatchLog := [],
          equityCurve := [] }).dispatchLog 0 =
      eventsFor ([] : List (ℕ × BrokerEvent)) 0 ++
        (brokerStartC4.last_order_updates.map BrokerEvent.orderUpdate ++
          brokerStartC4.last_trade_updates.map BrokerEvent.tradeUpdate) :=
  dispatch_notifications_exactly_once [stratC4]
    { broker := brokerStartC4, strats := [()], dispatchLog := [], equityCurve := [] }
    0 (by decide) rfl

/-- Witness for the amended claim C5 on a concrete call sequence. -/
theorem cash_never_negative_spec_witness :
    0 ≤ (applyCalls (initBroker 10 0)
      [BrokerCall.submit oC4, BrokerCall.execute [("A", barC4)] 0]).cash :=
  cash_never_negative_spec 10 0 [BrokerCall.submit oC4, BrokerCall.execute [("A", barC4)] 0]
    (by decide) (le_refl 0) (by decide)
    (by
      intro c hc
      rcases List.mem_cons.mp hc with rfl | hc2
      · intro p hp
        simp [oC4] at hp
      · rcases List.mem_cons.mp hc2 with rfl | hc3
        · intro pr hpr
          rcases List.mem_cons.mp hpr with rfl | h3
          · exact ⟨by decide, by decide, by decide⟩
          · simp at h3
        · simp at hc3)

/-- Witness for claim C7 on a concrete two-point grid. -/
theorem opt_results_sorted_spec_witness :
    ∃ results : List (OptResult Unit),
      run_optimization [feedC4] (fun _ => stratC4) [("p", GridVal.values [1, 2])] 100 0 =
        Except.ok results ∧
      results.length =
        (([("p", GridVal.values [1, 2])]).map (fun p =>
          match p.2 with
          | GridVal.single _ => 1
          | GridVal.values vs => vs.length)).prod ∧
      List.Sorted optLE results ∧
      (∀ a b : OptResult Unit, a.final_value = b.final_value →
        List.Sublist [a, b]
          (opt_results_unsorted [feedC4] (fun _ => stratC4) [("p", GridVal.values [1, 2])] 100 0) →
        List.Sublist [a, b] results) :=
  opt_results_sorted_spec [feedC4] (fun _ => stratC4) [("p", GridVal.values [1, 2])] 100 0
    (by simp)

/-- Witness for claim C8 at a concrete in-range access. -/
theorem lineGet_spec_witness :
    ((∃ e, lineGet [(5:ℚ)] 0 0 = Except.error e) ↔
      (0:ℤ) > 0 ∨ (0:ℤ) + 0 < 0 ∨ (0:ℤ) + 0 ≥ (([(5:ℚ)].length : ℤ))) ∧
    lineGet [(5:ℚ)] 0 0 = Except.ok ([(5:ℚ)].getD ((0:ℤ) + 0).toNat 0) :=
  ⟨(lineGet_spec [5] 0 0).1, (lineGet_spec [5] 0 0).2 (by decide)⟩

/-- Witness for claim C9 at a concrete pair of adds. -/
theorem position_update_sameSign_compose_witness :
    ((Position.update { size := 1, price := 10 } 1 20).1.update 2 14).1 =
      (Position.update { size := 1, price := 10 } (1 + 2)
        ((|(1:ℚ)| * 20 + |(2:ℚ)| * 14) / |(1:ℚ) + 2|)).1 ∧
    (Position.update { size := 1, price := 10 } 1 20).2 = 0 ∧
    ((Position.update { size := 1, price := 10 } 1 20).1.update 2 14).2 = 0 ∧
    (Position.update { size := 1, price := 10 } (1 + 2)
      ((|(1:ℚ)| * 20 + |(2:ℚ)| * 14) / |(1:ℚ) + 2|)).2 = 0 :=
  position_update_sameSign_compose { size := 1, price := 10 } 1 20 2 14
    (Or.inl ⟨by decide, by decide, by decide⟩)

/-- Witness for claim C10 on an empty feed. -/
theorem run_zero_bars_spec_witness :
    ∃ res : RunResult Unit, run 5 0 [{ name := "A", bars := [] }] [stratC4] = Except.ok res ∧
      res.strategies = [stratC4].map (fun sd => sd.onStop (sd.onStart sd.init).1) ∧
      res.dispatchLog = [] ∧ res.equityCurve = [] ∧
      res.broker.cash = 5 ∧ res.broker.positions = [] ∧ res.broker.value = 5 :=
  run_zero_bars_spec 5 0 [{ name := "A", bars := [] }] [stratC4] (by simp) (by simp) rfl
end MiniTrader
